import Mathlib

/-!
Verification of the markdown section-segmentation parser of the skid-homework
repository (`parseSolveResponse`, `parseImproveResponse` and the helper class
`MarkdownSectionParser`).  Strings are embedded as `List Char`; the external
block tokenizer (the `marked` lexer) is modelled line-by-line following the
tokenizer contract of the design document: an ordered sequence of block tokens,
each carrying a kind, an optional heading depth, the trimmed heading inline
text, and the verbatim raw source span, such that concatenating the raw spans
reconstructs the input.
-/

namespace Skid

/-- Strings are modelled as lists of characters. -/
abbrev Str := List Char

/-- The characters of a Lean string literal. -/
def chars (s : String) : Str := s.data

/-- Whitespace test used for trimming; models JS `trim` / the regex class
backslash-s on the ASCII inputs this parser handles. -/
def isWs (c : Char) : Bool := c.isWhitespace

/-- Both-ends whitespace trim, modelling JS `String.prototype.trim`. -/
def trim (l : Str) : Str := ((l.dropWhile isWs).reverse.dropWhile isWs).reverse

/-- Word character, modelling the regex class backslash-w. -/
def isWordChar (c : Char) : Bool := c.isAlphanum || c = '_'

/-- The backtick character (code point 96). -/
def bt : Char := Char.ofNat 96

/-- The three-backtick fence marker. -/
def fence3 : Str := chars "```"

/-- After the opening fence marker, the regex of
`MarkdownSectionParser.trimMarkdownFence` optionally consumes a language tag
made of word characters followed by greedy whitespace, or else one optional
newline. -/
def dropLang : Str → Str
  | [] => []
  | c :: t =>
    if isWordChar c then ((c :: t).dropWhile isWordChar).dropWhile isWs
    else if c = '\n' then t
    else c :: t

/-- Anchored tail of the fence regex: the remainder must end in a closing
three-backtick marker; the capture group is everything before that marker.
The optional newline the regex allows before the closing marker is left in
the capture here; the caller trims the capture, so the value is unchanged. -/
def fenceBody (body : Str) : Option Str :=
  if 3 ≤ body.length ∧ body.drop (body.length - 3) = fence3 then
    some (body.take (body.length - 3))
  else none

/-- Full anchored match of the fence-wrapper regex, returning the capture. -/
def fenceInnerL (cs : Str) : Option Str :=
  if fence3.isPrefixOf cs then fenceBody (dropLang (cs.drop 3)) else none

/-- `MarkdownSectionParser.trimMarkdownFence`: if the trimmed content matches
the anchored fence-wrapper regex, return the trimmed capture, else the trimmed
content. -/
def trimMarkdownFence (content : Str) : Str :=
  ((fenceInnerL (trim content)).map trim).getD (trim content)

/-- Split after every newline, keeping each newline at the end of its line;
concatenating the pieces reconstructs the input. -/
def linesAux : Str → Str → List Str
  | cur, [] => if cur = [] then [] else [cur.reverse]
  | cur, c :: t =>
    if c = '\n' then (c :: cur).reverse :: linesAux [] t else linesAux (c :: cur) t

/-- The lines of a text, each keeping its terminating newline. -/
def splitLinesL (l : Str) : List Str := linesAux [] l

/-- Modelled from the spec: a block token of the external tokenizer, carrying
a kind (heading or other), the heading depth, the trimmed heading inline text,
and the verbatim raw source span. -/
inductive Token where
  | heading (depth : Nat) (text : Str) (raw : Str)
  | text (raw : Str)
deriving DecidableEq

/-- The raw source span of a token. -/
def tokenRaw : Token → Str
  | .heading _ _ r => r
  | .text r => r

/-- Depth-3 heading test. -/
def isH3 : Token → Bool
  | .heading d _ _ => d == 3
  | .text _ => false

/-- Depth-4 heading test. -/
def isH4 : Token → Bool
  | .heading d _ _ => d == 4
  | .text _ => false

/-- The hash character test. -/
def isHash (c : Char) : Bool := c = '#'

/-- After the leading hashes of an ATX heading there must be whitespace or
the end of the line. -/
def restOk : Str → Bool
  | [] => true
  | c :: _ => isWs c

/-- The content of a line without its terminating newline. -/
def lineContent (line : Str) : Str :=
  if line.getLast? = some '\n' then line.dropLast else line

/-- Modelled from the spec: recognition of one ATX heading line, giving its
depth (1 to 6 leading hashes followed by whitespace or end of line) and its
trimmed inline text. -/
def headingOf (content : Str) : Option (Nat × Str) :=
  if 1 ≤ (content.takeWhile isHash).length ∧ (content.takeWhile isHash).length ≤ 6
      ∧ restOk (content.dropWhile isHash) = true then
    some ((content.takeWhile isHash).length, trim (content.dropWhile isHash))
  else none

/-- One line becomes one block token. -/
def lexLine (line : Str) : Token :=
  match headingOf (lineContent line) with
  | some dt => Token.heading dt.1 dt.2 line
  | none => Token.text line

/-- Modelled from the spec: the external block tokenizer (the `marked` lexer),
restricted to the block structure this parser inspects: each line is a token,
heading lines carry their depth and trimmed inline text, and every token keeps
its verbatim raw span. -/
def lexer (s : Str) : List Token := (splitLinesL s).map lexLine

/-- A key-to-body mapping, modelling the JS object built by
`getSectionsByH3`. -/
abbrev SectionMap := Str → Option Str

/-- The empty mapping. -/
def emptyMap : SectionMap := fun _ => none

/-- `sections[k] = ""`: overwrite the body of `k` with the empty string. -/
def setKey (m : SectionMap) (k : Str) : SectionMap :=
  fun q => if q = k then some [] else m q

/-- `sections[k] += r`: append to the body of `k`. -/
def appendKey (m : SectionMap) (k : Str) (r : Str) : SectionMap :=
  fun q => if q = k then some ((m k).getD [] ++ r) else m q

/-- The non-heading branch of the section walk: append the raw span of the
token to the active section, if any. -/
def sectionsAppend (st : Option Str × SectionMap) (t : Token) :
    Option Str × SectionMap :=
  match st.1 with
  | some k => (some k, appendKey st.2 k (tokenRaw t))
  | none => st

/-- One step of `getSectionsByH3`: a depth-3 heading starts (or restarts) a
section keyed by its trimmed text, an empty key deactivates the current
section, and every other token is appended to the active section. -/
def sectionsFold (st : Option Str × SectionMap) (t : Token) :
    Option Str × SectionMap :=
  match t with
  | .heading d text _ =>
    if d = 3 then
      if trim text = [] then (none, st.2)
      else (some (trim text), setKey st.2 (trim text))
    else sectionsAppend st t
  | .text _ => sectionsAppend st t

/-- `MarkdownSectionParser.getSectionsByH3`: walk the tokens once, then trim
every accumulated body. -/
def getSectionsByH3 (tokens : List Token) : SectionMap :=
  fun q => ((tokens.foldl sectionsFold (none, emptyMap)).2 q).map trim

/-- The section map of a markdown text, as built by the
`MarkdownSectionParser` constructor followed by `getSectionsByH3`. -/
def sectionsOf (markdown : Str) : SectionMap :=
  getSectionsByH3 (lexer (trimMarkdownFence markdown))

/-- One explanation step. -/
structure ExplanationStep where
  title : Str
  content : Str
deriving DecidableEq

/-- One parsed problem. -/
structure ProblemSolution where
  problem : Str
  explanation : Str
  answer : Str
  steps : List ExplanationStep
deriving DecidableEq

/-- The solve-mode result. -/
structure SolveResponse where
  problems : List ProblemSolution
deriving DecidableEq

/-- The improve-mode result. -/
structure ImproveResponse where
  improved_answer : Str
  improved_explanation : Str
  improved_steps : List ExplanationStep
deriving DecidableEq

/-- Push the pending step accumulator, if any, onto the output list. -/
def pushCur : Option ExplanationStep → List ExplanationStep → List ExplanationStep
  | some c, l => l ++ [c]
  | none, l => l

/-- The non-heading branch of the step walk: append the raw span of the token
to the pending step, if any. -/
def stepsAppend (st : Option ExplanationStep × List ExplanationStep) (t : Token) :
    Option ExplanationStep × List ExplanationStep :=
  match st.1 with
  | some c => (some ⟨c.title, c.content ++ tokenRaw t⟩, st.2)
  | none => st

/-- One step of `parseSteps`: a depth-4 heading pushes the pending step and
starts a new one titled by its trimmed text; every other token is appended to
the pending step. -/
def stepsFold (st : Option ExplanationStep × List ExplanationStep) (t : Token) :
    Option ExplanationStep × List ExplanationStep :=
  match t with
  | .heading d text _ =>
    if d = 4 then (some ⟨trim text, []⟩, pushCur st.1 st.2)
    else stepsAppend st t
  | .text _ => stepsAppend st t

/-- `MarkdownSectionParser.parseSteps`: split an explanation body on depth-4
headings into ordered steps, trim every content, and fall back to one
synthetic "Detailed Explanation" step when the non-empty body produced no
step. -/
def parseSteps (e : Str) : List ExplanationStep :=
  if e = [] then []
  else
    if (pushCur ((lexer e).foldl stepsFold (none, [])).1
          ((lexer e).foldl stepsFold (none, [])).2).map
        (fun s => ⟨s.title, trim s.content⟩) = ([] : List ExplanationStep)
        ∧ trim e ≠ [] then
      [⟨chars "Detailed Explanation", trim e⟩]
    else
      (pushCur ((lexer e).foldl stepsFold (none, [])).1
          ((lexer e).foldl stepsFold (none, [])).2).map
        (fun s => ⟨s.title, trim s.content⟩)

/-- The problem separator literal. -/
def sepL : Str := chars "---PROBLEM_SEPARATOR---"

/-- One pass of JS `String.prototype.split` with a non-empty string separator:
scan left to right, cutting at every non-overlapping occurrence.  The fuel is
an upper bound on the number of characters consumed; `splitOnL` supplies
enough fuel for the scan to finish. -/
def splitAux (sep : Str) : Nat → Str → Str → List Str
  | 0, acc, l => [acc.reverse ++ l]
  | _ + 1, acc, [] => [acc.reverse]
  | fuel + 1, acc, c :: t =>
    if sep.isPrefixOf (c :: t) then
      acc.reverse :: splitAux sep fuel [] (List.drop sep.length (c :: t))
    else splitAux sep fuel (c :: acc) t

/-- JS `response.split(sep)` for a non-empty separator. -/
def splitOnL (sep l : Str) : List Str := splitAux sep (l.length + 1) [] l

/-- Assemble one `ProblemSolution` from a section map: read the three known
keys (defaulting to empty), drop the chunk when all three are empty, and
derive `steps` from the explanation. -/
def mkProblem (sections : SectionMap) : Option ProblemSolution :=
  if (sections (chars "PROBLEM_TEXT")).getD [] = []
      ∧ (sections (chars "EXPLANATION")).getD [] = []
      ∧ (sections (chars "ANSWER")).getD [] = [] then none
  else
    some ⟨(sections (chars "PROBLEM_TEXT")).getD [],
          (sections (chars "EXPLANATION")).getD [],
          (sections (chars "ANSWER")).getD [],
          parseSteps ((sections (chars "EXPLANATION")).getD [])⟩

/-- Process one separator-delimited chunk of `parseSolveResponse`: blank
chunks are skipped, the rest are parsed into a section map and assembled. -/
def chunkToProblem (chunk : Str) : Option ProblemSolution :=
  if trim chunk = [] then none else mkProblem (sectionsOf chunk)

/-- `parseSolveResponse`: split on the separator, assemble each chunk, and if
nothing was produced while the trimmed input is non-empty return the single
synthetic error record carrying the entire original input. -/
def parseSolveResponse (response : Str) : SolveResponse :=
  if (splitOnL sepL response).filterMap chunkToProblem = []
      ∧ trim response ≠ [] then
    ⟨[⟨chars "Error parsing problem text", response, [],
       [⟨chars "Error", response⟩]⟩]⟩
  else ⟨(splitOnL sepL response).filterMap chunkToProblem⟩

/-- `parseImproveResponse`: read the two improve-mode keys; when both are
absent or empty signal failure with `none`, else assemble the record with
missing fields defaulted to empty and steps derived from the improved
explanation. -/
def parseImproveResponse (response : Str) : Option ImproveResponse :=
  if (sectionsOf response (chars "IMPROVED_EXPLANATION")).getD [] = []
      ∧ (sectionsOf response (chars "IMPROVED_ANSWER")).getD [] = [] then none
  else
    some ⟨(sectionsOf response (chars "IMPROVED_ANSWER")).getD [],
          (sectionsOf response (chars "IMPROVED_EXPLANATION")).getD [],
          parseSteps ((sectionsOf response (chars "IMPROVED_EXPLANATION")).getD [])⟩

/-- Concatenation of the raw spans of a token sequence. -/
def joinRaw : List Token → Str
  | [] => []
  | t :: ts => tokenRaw t ++ joinRaw ts

/-- A response wrapped once in an enclosing triple-backtick fence with an
optional language tag. -/
def wrapFence (lang s : Str) : Str :=
  chars "```" ++ lang ++ ['\n'] ++ s ++ ['\n'] ++ chars "```"

/-! ### Lemmas about `dropWhile` and `trim` -/

theorem dropWhile_head_false {p : Char → Bool} :
    ∀ {l c : _} {t : Str}, List.dropWhile p l = c :: t → p c = false := by
  intro l
  induction l with
  | nil => intro c t h; simp at h
  | cons a l ih =>
    intro c t h
    by_cases hp : p a
    · rw [List.dropWhile_cons_of_pos hp] at h
      exact ih h
    · rw [List.dropWhile_cons_of_neg hp] at h
      cases h
      simpa using hp

theorem dropWhile_idem {p : Char → Bool} (l : Str) :
    (l.dropWhile p).dropWhile p = l.dropWhile p := by
  cases h : l.dropWhile p with
  | nil => simp
  | cons c t =>
    rw [List.dropWhile_cons_of_neg (by simp [dropWhile_head_false h])]

theorem trim_nil : trim ([] : Str) = [] := rfl

theorem trim_cons_ws {c : Char} (h : isWs c = true) (l : Str) :
    trim (c :: l) = trim l := by
  simp [trim, List.dropWhile_cons_of_pos h]

theorem trim_append_ws {c : Char} (h : isWs c = true) (l : Str) :
    trim (l ++ [c]) = trim l := by
  rw [trim, trim, List.dropWhile_append]
  by_cases he : (l.dropWhile isWs).isEmpty
  · rw [if_pos he]
    have hnil : l.dropWhile isWs = [] := by simpa using he
    simp [hnil, List.dropWhile_cons_of_pos h]
  · rw [if_neg he]
    simp [List.reverse_append, List.dropWhile_cons_of_pos h]

theorem trim_dropWhile_ws (l : Str) : trim (l.dropWhile isWs) = trim l := by
  simp only [trim, dropWhile_idem]

theorem trim_eq_nil_iff (l : Str) : trim l = [] ↔ ∀ c ∈ l, isWs c = true := by
  constructor
  · intro h c hc
    rw [trim, List.reverse_eq_nil_iff, List.dropWhile_eq_nil_iff] at h
    have hsplit := List.takeWhile_append_dropWhile isWs l
    rw [← hsplit] at hc
    rcases List.mem_append.1 hc with h1 | h2
    · exact List.mem_takeWhile_imp h1
    · exact h c (List.mem_reverse.2 h2)
  · intro h
    have hd : l.dropWhile isWs = [] := List.dropWhile_eq_nil_iff.2 h
    simp [trim, hd]

theorem trim_ne_ws_head {l : Str} {c : Char} {t : Str} (h : trim l = c :: t) :
    isWs c = false := by
  have hpre : trim l <+: l.dropWhile isWs := by
    apply List.reverse_suffix.1
    rw [trim, List.reverse_reverse]
    exact List.dropWhile_suffix _
  obtain ⟨r, hr⟩ := hpre
  rw [h] at hr
  exact @dropWhile_head_false isWs l c (t ++ r) (by simpa using hr.symm)

theorem trim_idem (l : Str) : trim (trim l) = trim l := by
  cases h : trim l with
  | nil => exact trim_nil
  | cons c t =>
    rw [← h]
    have hc : isWs c = false := trim_ne_ws_head h
    have h1 : (trim l).dropWhile isWs = trim l := by
      rw [h, List.dropWhile_cons_of_neg (by simp [hc])]
    have h2 : ((trim l).reverse).dropWhile isWs = (trim l).reverse := by
      have hrw : (trim l).reverse = ((l.dropWhile isWs).reverse).dropWhile isWs := by
        rw [trim, List.reverse_reverse]
      rw [hrw, dropWhile_idem]
    calc trim (trim l)
        = (((trim l).dropWhile isWs).reverse.dropWhile isWs).reverse := rfl
      _ = ((trim l).reverse.dropWhile isWs).reverse := by rw [h1]
      _ = ((trim l).reverse).reverse := by rw [h2]
      _ = trim l := List.reverse_reverse _

theorem trim_eq_self_of_ends {a b : Char} (ha : isWs a = false) (hb : isWs b = false)
    (mid : Str) : trim (a :: mid ++ [b]) = a :: mid ++ [b] := by
  have e1 : (a :: mid ++ [b] : Str) = a :: (mid ++ [b]) := by simp
  rw [e1, trim, List.dropWhile_cons_of_neg (by simp [ha])]
  have e2 : (a :: (mid ++ [b]) : Str).reverse = b :: (mid.reverse ++ [a]) := by simp
  rw [e2, List.dropWhile_cons_of_neg (by simp [hb])]
  simp

/-! ### Character provenance of split pieces and lines -/

theorem splitAux_mem_subset (sep : Str) :
    ∀ (fuel : Nat) (acc l piece : Str), piece ∈ splitAux sep fuel acc l →
      ∀ c ∈ piece, c ∈ acc ∨ c ∈ l := by
  intro fuel
  induction fuel with
  | zero =>
    intro acc l piece hp c hc
    simp only [splitAux, List.mem_singleton] at hp
    subst hp
    rcases List.mem_append.1 hc with h | h
    · exact Or.inl (List.mem_reverse.1 h)
    · exact Or.inr h
  | succ fuel ih =>
    intro acc l piece hp c hc
    cases l with
    | nil =>
      simp only [splitAux, List.mem_singleton] at hp
      subst hp
      exact Or.inl (List.mem_reverse.1 hc)
    | cons a t =>
      rw [splitAux] at hp
      by_cases hpre : sep.isPrefixOf (a :: t)
      · rw [if_pos hpre] at hp
        rcases List.mem_cons.1 hp with h | h
        · subst h; exact Or.inl (List.mem_reverse.1 hc)
        · rcases ih [] _ piece h c hc with h' | h'
          · simp at h'
          · exact Or.inr (List.mem_of_mem_drop h')
      · rw [if_neg hpre] at hp
        rcases ih (a :: acc) t piece hp c hc with h' | h'
        · rcases List.mem_cons.1 h' with h'' | h''
          · subst h''; exact Or.inr (List.mem_cons_self _ _)
          · exact Or.inl h''
        · exact Or.inr (List.mem_cons_of_mem _ h')

theorem linesAux_mem_subset :
    ∀ (l cur line : Str), line ∈ linesAux cur l → ∀ c ∈ line, c ∈ cur ∨ c ∈ l := by
  intro l
  induction l with
  | nil =>
    intro cur line h c hc
    by_cases hcur : cur = []
    · simp [linesAux, hcur] at h
    · simp only [linesAux, if_neg hcur, List.mem_singleton] at h
      subst h
      exact Or.inl (List.mem_reverse.1 hc)
  | cons a t ih =>
    intro cur line h c hc
    rw [linesAux] at h
    by_cases ha : a = '\n'
    · rw [if_pos ha] at h
      rcases List.mem_cons.1 h with h1 | h1
      · subst h1
        rcases List.mem_cons.1 (List.mem_reverse.1 hc) with h2 | h2
        · subst h2; exact Or.inr (List.mem_cons_self _ _)
        · exact Or.inl h2
      · rcases ih [] line h1 c hc with h2 | h2
        · simp at h2
        · exact Or.inr (List.mem_cons_of_mem _ h2)
    · rw [if_neg ha] at h
      rcases ih (a :: cur) line h c hc with h2 | h2
      · rcases List.mem_cons.1 h2 with h3 | h3
        · subst h3; exact Or.inr (List.mem_cons_self _ _)
        · exact Or.inl h3
      · exact Or.inr (List.mem_cons_of_mem _ h2)

/-! ### Lexer behaviour on all-whitespace input -/

theorem headingOf_has_hash {content : Str} {dt : Nat × Str}
    (h : headingOf content = some dt) : '#' ∈ content := by
  rw [headingOf] at h
  split at h
  · rename_i hcond
    obtain ⟨h1, _, _⟩ := hcond
    cases htw : content.takeWhile isHash with
    | nil => rw [htw] at h1; simp at h1
    | cons c t =>
      have hmem : c ∈ content.takeWhile isHash := by rw [htw]; exact List.mem_cons_self _ _
      have hhash : isHash c = true := List.mem_takeWhile_imp hmem
      have hceq : c = '#' := by simpa [isHash] using hhash
      have hsplit := List.takeWhile_append_dropWhile isHash content
      rw [← hsplit]
      exact List.mem_append.2 (Or.inl (hceq ▸ hmem))
  · exact absurd h (by simp)

theorem lexLine_all_ws_text {line : Str} (h : ∀ c ∈ line, isWs c = true) :
    lexLine line = Token.text line := by
  rw [lexLine]
  cases hh : headingOf (lineContent line) with
  | none => rfl
  | some dt =>
    exfalso
    have hmem : '#' ∈ lineContent line := headingOf_has_hash hh
    have hline : '#' ∈ line := by
      rw [lineContent] at hmem
      split at hmem
      · exact (List.dropLast_sublist line).mem hmem
      · exact hmem
    have hws := h _ hline
    have : isWs '#' = false := by decide
    rw [this] at hws
    exact absurd hws (by simp)

theorem lexer_all_ws {s : Str} (h : ∀ c ∈ s, isWs c = true) :
    ∀ t ∈ lexer s, isH3 t = false ∧ isH4 t = false := by
  intro t ht
  rw [lexer, List.mem_map] at ht
  obtain ⟨line, hline, rfl⟩ := ht
  rw [splitLinesL] at hline
  have hsub : ∀ c ∈ line, isWs c = true := by
    intro c hc
    rcases linesAux_mem_subset s [] line hline c hc with h' | h'
    · simp at h'
    · exact h c h'
  rw [lexLine_all_ws_text hsub]
  exact ⟨rfl, rfl⟩

/-! ### Lemmas about the section walk -/

theorem sectionsFold_not_h3 {t : Token} (ht : isH3 t = false) (k : Str)
    (m : SectionMap) :
    sectionsFold (some k, m) t = (some k, appendKey m k (tokenRaw t)) := by
  cases t with
  | heading d text raw =>
    have hd : d ≠ 3 := by simpa [isH3] using ht
    simp only [sectionsFold, if_neg hd]
    rfl
  | text raw => rfl

theorem foldl_sections_no_h3 :
    ∀ {ts : List Token}, (∀ t ∈ ts, isH3 t = false) →
      ∀ (k v : Str) (m : SectionMap), m k = some v →
        ts.foldl sectionsFold (some k, m)
          = (some k, fun q => if q = k then some (v ++ joinRaw ts) else m q) := by
  intro ts
  induction ts with
  | nil =>
    intro _ k v m hm
    simp only [List.foldl_nil, joinRaw, List.append_nil]
    refine Prod.ext rfl ?_
    funext q
    by_cases hq : q = k
    · subst hq; simp [hm]
    · simp [hq]
  | cons t ts ih =>
    intro h k v m hm
    rw [List.foldl_cons, sectionsFold_not_h3 (h t (List.mem_cons_self _ _))]
    rw [ih (fun t' ht' => h t' (List.mem_cons_of_mem _ ht')) k (v ++ tokenRaw t)
      (appendKey m k (tokenRaw t)) (by simp [appendKey, hm])]
    refine Prod.ext rfl ?_
    funext q
    by_cases hq : q = k
    · subst hq; simp [joinRaw, List.append_assoc]
    · simp [hq, appendKey]

/-! ### Lemmas about the step walk -/

theorem stepsAppend_snd (st : Option ExplanationStep × List ExplanationStep)
    (t : Token) : (stepsAppend st t).2 = st.2 := by
  rw [stepsAppend]
  cases st.1 <;> rfl

theorem stepsAppend_fst_title (st : Option ExplanationStep × List ExplanationStep)
    (t : Token) :
    ∀ c, (stepsAppend st t).1 = some c →
      ∃ c₀, st.1 = some c₀ ∧ c.title = c₀.title := by
  intro c hc
  cases h0 : st.1 with
  | some c₀ =>
    refine ⟨c₀, rfl, ?_⟩
    simp only [stepsAppend, h0, Option.some.injEq] at hc
    rw [← hc]
  | none =>
    simp only [stepsAppend, h0] at hc
    simp at hc

theorem foldl_steps_none :
    ∀ {ts : List Token}, (∀ t ∈ ts, isH4 t = false) →
      ∀ l : List ExplanationStep, ts.foldl stepsFold (none, l) = (none, l) := by
  intro ts
  induction ts with
  | nil => intro _ l; rfl
  | cons t ts ih =>
    intro h l
    rw [List.foldl_cons]
    have hst : stepsFold (none, l) t = (none, l) := by
      cases t with
      | heading d text raw =>
        have hd : d ≠ 4 := by simpa [isH4] using h _ (List.mem_cons_self _ _)
        simp only [stepsFold, if_neg hd]
        rfl
      | text raw => rfl
    rw [hst]
    exact ih (fun t' ht' => h t' (List.mem_cons_of_mem _ ht')) l

theorem foldl_steps_titles :
    ∀ {ts : List Token} {st : Option ExplanationStep × List ExplanationStep},
      (∀ x ∈ st.2, trim x.title = x.title) →
      (∀ c, st.1 = some c → trim c.title = c.title) →
      (∀ x ∈ (ts.foldl stepsFold st).2, trim x.title = x.title)
        ∧ ∀ c, (ts.foldl stepsFold st).1 = some c → trim c.title = c.title := by
  intro ts
  induction ts with
  | nil => intro st h1 h2; exact ⟨h1, h2⟩
  | cons t ts ih =>
    intro st h1 h2
    rw [List.foldl_cons]
    apply ih
    · intro x hx
      cases t with
      | heading d text raw =>
        by_cases hd : d = 4
        · simp only [stepsFold, if_pos hd] at hx
          cases hcur : st.1 with
          | some c =>
            rw [hcur] at hx
            rcases List.mem_append.1 hx with h | h
            · exact h1 x h
            · rw [List.mem_singleton] at h
              subst h
              exact h2 x hcur
          | none =>
            rw [hcur] at hx
            exact h1 x hx
        · simp only [stepsFold, if_neg hd] at hx
          rw [stepsAppend_snd] at hx
          exact h1 x hx
      | text raw =>
        simp only [stepsFold] at hx
        rw [stepsAppend_snd] at hx
        exact h1 x hx
    · intro c hc
      cases t with
      | heading d text raw =>
        by_cases hd : d = 4
        · simp only [stepsFold, if_pos hd, Option.some.injEq] at hc
          rw [← hc]
          exact trim_idem _
        · simp only [stepsFold, if_neg hd] at hc
          obtain ⟨c₀, hc₀, ht⟩ := stepsAppend_fst_title st _ c hc
          rw [ht]
          exact h2 c₀ hc₀
      | text raw =>
        simp only [stepsFold] at hc
        obtain ⟨c₀, hc₀, ht⟩ := stepsAppend_fst_title st _ c hc
        rw [ht]
        exact h2 c₀ hc₀

theorem parseSteps_trimmed {e : Str} :
    ∀ x ∈ parseSteps e, trim x.title = x.title ∧ trim x.content = x.content := by
  intro x hx
  rw [parseSteps] at hx
  split at hx
  · simp at hx
  · split at hx
    · rw [List.mem_singleton] at hx
      subst hx
      refine ⟨?_, trim_idem _⟩
      show trim (chars "Detailed Explanation") = chars "Detailed Explanation"
      decide
    · rw [List.mem_map] at hx
      obtain ⟨y, hy, rfl⟩ := hx
      refine ⟨?_, trim_idem _⟩
      have hinv := @foldl_steps_titles (lexer e) (none, [])
        (by intro x hx; simp at hx) (by intro c hc; simp at hc)
      rcases hcur : ((lexer e).foldl stepsFold (none, [])).1 with _ | c
      · rw [hcur] at hy
        simp only [pushCur] at hy
        exact hinv.1 y hy
      · rw [hcur] at hy
        simp only [pushCur] at hy
        rcases List.mem_append.1 hy with h | h
        · exact hinv.1 y h
        · rw [List.mem_singleton] at h
          subst h
          exact hinv.2 y hcur

/-! ### Trimmedness of section bodies -/

theorem sections_getD_trimmed (s k : Str) :
    trim ((sectionsOf s k).getD []) = (sectionsOf s k).getD [] := by
  cases h : sectionsOf s k with
  | none => exact trim_nil
  | some v =>
    simp only [Option.getD_some]
    simp only [sectionsOf, getSectionsByH3] at h
    cases h2 : ((lexer (trimMarkdownFence s)).foldl sectionsFold (none, emptyMap)).2 k with
    | none => rw [h2] at h; simp at h
    | some w =>
      rw [h2] at h
      simp only [Option.map_some', Option.some.injEq] at h
      rw [← h]
      exact trim_idem w

/-! ### Lemmas about the fence stripper -/

theorem bt_not_ws : isWs bt = false := by decide

theorem fence3_eq : fence3 = [bt, bt, bt] := by decide

theorem chars_fence : chars "```" = [bt, bt, bt] := by decide

theorem dropLang_suffix (l : Str) : dropLang l <:+ l := by
  cases l with
  | nil => exact List.suffix_refl _
  | cons c t =>
    rw [dropLang]
    by_cases h1 : isWordChar c
    · rw [if_pos h1]
      exact (List.dropWhile_suffix _).trans (List.dropWhile_suffix _)
    · rw [if_neg h1]
      by_cases h2 : c = '\n'
      · rw [if_pos h2]; exact List.suffix_cons _ _
      · rw [if_neg h2]

theorem dropWhile_ws_fence_append (x : Str) :
    (x ++ [bt, bt, bt]).dropWhile isWs = x.dropWhile isWs ++ [bt, bt, bt] := by
  rw [List.dropWhile_append]
  by_cases h : (x.dropWhile isWs).isEmpty
  · rw [if_pos h]
    have hnil : x.dropWhile isWs = [] := by simpa using h
    rw [hnil, List.dropWhile_cons_of_neg (by simp [bt_not_ws]), List.nil_append]
  · rw [if_neg h]

theorem fenceBody_append (x : Str) : fenceBody (x ++ [bt, bt, bt]) = some x := by
  have hlen : (x ++ [bt, bt, bt]).length - 3 = x.length := by simp
  rw [fenceBody, hlen]
  have hdrop : (x ++ [bt, bt, bt]).drop x.length = fence3 := by
    rw [List.drop_left, fence3_eq]
  rw [if_pos ⟨by simp, hdrop⟩, List.take_left]

theorem trimFence_wrap (lang s : Str) (hlang : ∀ c ∈ lang, isWordChar c = true) :
    trimMarkdownFence (wrapFence lang s) = trim s := by
  have hnf : wrapFence lang s
      = [bt, bt, bt] ++ (lang ++ '\n' :: (s ++ '\n' :: [bt, bt, bt])) := by
    simp [wrapFence, chars_fence]
  have htrim1 : trim (wrapFence lang s) = wrapFence lang s := by
    have hform : wrapFence lang s
        = bt :: (bt :: bt :: (lang ++ '\n' :: (s ++ '\n' :: [bt, bt]))) ++ [bt] := by
      simp [wrapFence, chars_fence]
    rw [hform]
    exact trim_eq_self_of_ends bt_not_ws bt_not_ws _
  have hdrop3 : (wrapFence lang s).drop 3
      = lang ++ '\n' :: (s ++ '\n' :: [bt, bt, bt]) := by
    rw [hnf]
    rfl
  have hpre : fence3.isPrefixOf (wrapFence lang s) = true :=
    List.isPrefixOf_iff_prefix.2
      ⟨lang ++ '\n' :: (s ++ '\n' :: [bt, bt, bt]), by rw [fence3_eq, ← hnf]⟩
  rw [trimMarkdownFence, htrim1, fenceInnerL, if_pos hpre, hdrop3]
  cases lang with
  | nil =>
    have hstep : dropLang (([] : Str) ++ '\n' :: (s ++ '\n' :: [bt, bt, bt]))
        = (s ++ ['\n']) ++ [bt, bt, bt] := by
      rw [List.nil_append, dropLang]
      rw [if_neg (by decide), if_pos rfl]
      simp
    rw [hstep, fenceBody_append]
    show trim (s ++ ['\n']) = trim s
    exact trim_append_ws (by decide) s
  | cons lc lt =>
    have hword : isWordChar lc = true := hlang lc (List.mem_cons_self _ _)
    have hstep : dropLang ((lc :: lt) ++ '\n' :: (s ++ '\n' :: [bt, bt, bt]))
        = (s ++ ['\n']).dropWhile isWs ++ [bt, bt, bt] := by
      rw [List.cons_append, dropLang, if_pos hword]
      have h1 : (lc :: (lt ++ '\n' :: (s ++ '\n' :: [bt, bt, bt]))).dropWhile isWordChar
          = '\n' :: (s ++ '\n' :: [bt, bt, bt]) := by
        have hre : lc :: (lt ++ '\n' :: (s ++ '\n' :: [bt, bt, bt]))
            = (lc :: lt) ++ '\n' :: (s ++ '\n' :: [bt, bt, bt]) := by simp
        rw [hre, List.dropWhile_append_of_pos hlang,
          List.dropWhile_cons_of_neg (by decide)]
      rw [h1, List.dropWhile_cons_of_pos (by decide)]
      have h2 : (s ++ '\n' :: [bt, bt, bt] : Str) = (s ++ ['\n']) ++ [bt, bt, bt] := by
        simp
      rw [h2, dropWhile_ws_fence_append]
    rw [hstep, fenceBody_append]
    show trim ((s ++ ['\n']).dropWhile isWs) = trim s
    rw [trim_dropWhile_ws]
    exact trim_append_ws (by decide) s

/-! ### Claim theorems -/

/-- C2: on the well-formed input built as
`### PROBLEM_TEXT\nP\n### EXPLANATION\n#### Step 1: A\nC1\n#### Step 2: B\nC2\n### ANSWER\nX`,
`parseSolveResponse` returns exactly one `ProblemSolution` with problem `P`,
answer `X`, explanation holding both depth-4 step headings with their bodies,
and steps `[(Step 1: A, C1), (Step 2: B, C2)]`. -/
theorem c2_round_trip_well_formed :
    parseSolveResponse (chars "### PROBLEM_TEXT\nP\n### EXPLANATION\n#### Step 1: A\nC1\n#### Step 2: B\nC2\n### ANSWER\nX")
      = ⟨[⟨chars "P",
           chars "#### Step 1: A\nC1\n#### Step 2: B\nC2",
           chars "X",
           [⟨chars "Step 1: A", chars "C1"⟩, ⟨chars "Step 2: B", chars "C2"⟩]⟩]⟩ := by
  decide

/-- C4: `parseImproveResponse` fails (returns `none`, no partial record) if
and only if both improve-mode sections are absent or empty; otherwise it
returns a record whose fields are the section bodies defaulted to empty and
whose steps are derived from the improved explanation by the step splitter;
in particular `### UNRELATED\nfoo` is a failure. -/
theorem c4_improve_failure_iff (s : Str) :
    (parseImproveResponse s = none ↔
      (sectionsOf s (chars "IMPROVED_EXPLANATION")).getD [] = []
        ∧ (sectionsOf s (chars "IMPROVED_ANSWER")).getD [] = [])
    ∧ (∀ r, parseImproveResponse s = some r →
        r.improved_answer = (sectionsOf s (chars "IMPROVED_ANSWER")).getD []
        ∧ r.improved_explanation = (sectionsOf s (chars "IMPROVED_EXPLANATION")).getD []
        ∧ r.improved_steps = parseSteps r.improved_explanation)
    ∧ parseImproveResponse (chars "### UNRELATED\nfoo") = none := by
  refine ⟨?_, ?_, by decide⟩
  · rw [parseImproveResponse]
    split
    · rename_i hcond
      simpa using hcond
    · rename_i hcond
      constructor
      · intro h
        exact absurd h (by simp)
      · intro h
        exact absurd h hcond
  · intro r hr
    rw [parseImproveResponse] at hr
    split at hr
    · exact absurd hr (by simp)
    · simp only [Option.some.injEq] at hr
      subst hr
      exact ⟨rfl, rfl, rfl⟩

/-- C4 witness: a concrete improve response with only an answer section
parses to a record with empty explanation and empty step list. -/
theorem c4_improve_failure_iff_witness :
    (⟨chars "ok", [], []⟩ : ImproveResponse).improved_answer
        = (sectionsOf (chars "### IMPROVED_ANSWER\nok") (chars "IMPROVED_ANSWER")).getD []
      ∧ (⟨chars "ok", [], []⟩ : ImproveResponse).improved_explanation
        = (sectionsOf (chars "### IMPROVED_ANSWER\nok") (chars "IMPROVED_EXPLANATION")).getD []
      ∧ (⟨chars "ok", [], []⟩ : ImproveResponse).improved_steps
        = parseSteps (⟨chars "ok", [], []⟩ : ImproveResponse).improved_explanation :=
  (c4_improve_failure_iff (chars "### IMPROVED_ANSWER\nok")).2.1
    ⟨chars "ok", [], []⟩ (by decide)

/-- C5: `parseSolveResponse` never fails: on empty trimmed input it returns an
empty problem list with no synthetic fallback, and when no chunk produced a
record while the trimmed input is non-empty it returns exactly the synthetic
error record carrying the whole original input; concretely
`just plain text` yields that record and the empty string yields no
problems. -/
theorem c5_solve_total_fallback (s : Str) :
    (trim s = [] → parseSolveResponse s = ⟨[]⟩)
    ∧ ((splitOnL sepL s).filterMap chunkToProblem = [] → trim s ≠ [] →
        parseSolveResponse s
          = ⟨[⟨chars "Error parsing problem text", s, [],
               [⟨chars "Error", s⟩]⟩]⟩)
    ∧ parseSolveResponse (chars "just plain text")
        = ⟨[⟨chars "Error parsing problem text", chars "just plain text", [],
             [⟨chars "Error", chars "just plain text"⟩]⟩]⟩
    ∧ parseSolveResponse (chars "") = ⟨[]⟩ := by
  refine ⟨?_, ?_, by decide, by decide⟩
  · intro h
    have hws : ∀ c ∈ s, isWs c = true := (trim_eq_nil_iff s).1 h
    have hchunks : (splitOnL sepL s).filterMap chunkToProblem = [] := by
      rw [List.filterMap_eq_nil_iff]
      intro chunk hchunk
      rw [splitOnL] at hchunk
      have hcw : ∀ c ∈ chunk, isWs c = true := by
        intro c hc
        rcases splitAux_mem_subset sepL (s.length + 1) [] s chunk hchunk c hc with h' | h'
        · simp at h'
        · exact hws c h'
      rw [chunkToProblem, if_pos ((trim_eq_nil_iff chunk).2 hcw)]
    rw [parseSolveResponse, if_neg (by simp [h]), hchunks]
  · intro h1 h2
    rw [parseSolveResponse, if_pos ⟨h1, h2⟩]

/-- C5 witness: a whitespace-only response yields no problems and no
synthetic fallback. -/
theorem c5_solve_total_fallback_witness : parseSolveResponse (chars " ") = ⟨[]⟩ :=
  (c5_solve_total_fallback (chars " ")).1 (by decide)

/-- C7: the step splitter returns one synthetic `Detailed Explanation` step
holding the whole trimmed body whenever the body is non-empty after trimming
and its token sequence holds no depth-4 heading, and the empty sequence
whenever the body trims to nothing. -/
theorem c7_step_splitter_fallback (e : Str) :
    (trim e ≠ [] → (∀ t ∈ lexer e, isH4 t = false) →
      parseSteps e = [⟨chars "Detailed Explanation", trim e⟩])
    ∧ (trim e = [] → parseSteps e = []) := by
  constructor
  · intro hne hh4
    have hel : e ≠ [] := by
      intro h
      rw [h] at hne
      exact hne trim_nil
    rw [parseSteps, if_neg hel, foldl_steps_none hh4]
    simp only [pushCur, List.map_nil]
    rw [if_pos ⟨by simp, hne⟩]
  · intro h
    by_cases hel : e = []
    · rw [parseSteps, if_pos hel]
    · have hws : ∀ c ∈ e, isWs c = true := (trim_eq_nil_iff e).1 h
      have hh4 : ∀ t ∈ lexer e, isH4 t = false := fun t ht => (lexer_all_ws hws t ht).2
      rw [parseSteps, if_neg hel, foldl_steps_none hh4]
      simp only [pushCur, List.map_nil]
      rw [if_neg (by simp [h])]

/-- C7 witness: a plain body with no depth-4 heading becomes one synthetic
step holding the body. -/
theorem c7_step_splitter_fallback_witness :
    parseSteps (chars "hello world")
      = [⟨chars "Detailed Explanation", chars "hello world"⟩] :=
  ((c7_step_splitter_fallback (chars "hello world")).1 (by decide) (by decide)).trans
    (by decide)

/-- C1 counterexample: the synthetic fallback record of
`parseSolveResponse "just plain text"` has steps `[(Error, input)]`, but the
step splitter applied to its explanation gives the `Detailed Explanation`
step, so the claimed invariant fails on the fallback record. -/
theorem c1_counterexample :
    (parseSolveResponse (chars "just plain text")).problems
        = [⟨chars "Error parsing problem text", chars "just plain text", [],
            [⟨chars "Error", chars "just plain text"⟩]⟩]
    ∧ ¬ ([⟨chars "Error", chars "just plain text"⟩] : List ExplanationStep)
        = parseSteps (chars "just plain text") := by
  exact ⟨by decide, by decide⟩

/-- C1 (amended): every `ProblemSolution` that `parseSolveResponse` produces
either satisfies `steps = parseSteps explanation` or is the synthetic
fallback record (whose steps are the fixed `[(Error, input)]` value), and
every record `parseImproveResponse` produces satisfies
`improved_steps = parseSteps improved_explanation`. -/
theorem c1_steps_invariant (s : Str) :
    (∀ p ∈ (parseSolveResponse s).problems,
        p.steps = parseSteps p.explanation
          ∨ p = ⟨chars "Error parsing problem text", s, [],
                 [⟨chars "Error", s⟩]⟩)
    ∧ (∀ r, parseImproveResponse s = some r →
        r.improved_steps = parseSteps r.improved_explanation) := by
  constructor
  · intro p hp
    rw [parseSolveResponse] at hp
    split at hp
    · simp only [List.mem_singleton] at hp
      exact Or.inr hp
    · simp only [List.mem_filterMap] at hp
      obtain ⟨chunk, _, hc⟩ := hp
      rw [chunkToProblem] at hc
      split at hc
      · exact absurd hc (by simp)
      · rw [mkProblem] at hc
        split at hc
        · exact absurd hc (by simp)
        · simp only [Option.some.injEq] at hc
          subst hc
          exact Or.inl rfl
  · intro r hr
    rw [parseImproveResponse] at hr
    split at hr
    · exact absurd hr (by simp)
    · simp only [Option.some.injEq] at hr
      subst hr
      rfl

/-- C1 witness: the record parsed from `### ANSWER\n42` satisfies the step
derivation invariant. -/
theorem c1_steps_invariant_witness :
    (⟨[], [], chars "42", []⟩ : ProblemSolution).steps
        = parseSteps (⟨[], [], chars "42", []⟩ : ProblemSolution).explanation
      ∨ (⟨[], [], chars "42", []⟩ : ProblemSolution)
        = ⟨chars "Error parsing problem text", chars "### ANSWER\n42", [],
           [⟨chars "Error", chars "### ANSWER\n42"⟩]⟩ :=
  (c1_steps_invariant (chars "### ANSWER\n42")).1 ⟨[], [], chars "42", []⟩ (by decide)

/-- C6: in the section grouper a later depth-3 heading with the same key
starts a fresh empty body that replaces everything accumulated before — the
result at the key is exactly the trimmed raw content following the last
occurrence, whatever came before it, and the heading line itself is not
appended; concretely a chunk with two `### ANSWER` sections keeps only the
second body. -/
theorem c6_last_write_wins :
    (∀ (ts₁ ts₂ : List Token) (ttext r k : Str), trim ttext = k → k ≠ [] →
        (∀ tok ∈ ts₂, isH3 tok = false) →
        getSectionsByH3 (ts₁ ++ Token.heading 3 ttext r :: ts₂) k
          = some (trim (joinRaw ts₂)))
    ∧ parseSolveResponse (chars "### ANSWER\nfirst\n### ANSWER\nsecond")
        = ⟨[⟨[], [], chars "second", []⟩]⟩ := by
  refine ⟨?_, by decide⟩
  intro ts₁ ts₂ ttext r k htrim hk h2
  simp only [getSectionsByH3]
  rw [List.foldl_append, List.foldl_cons]
  have hstep : sectionsFold (ts₁.foldl sectionsFold (none, emptyMap))
      (Token.heading 3 ttext r)
      = (some k, setKey (ts₁.foldl sectionsFold (none, emptyMap)).2 k) := by
    simp only [sectionsFold, htrim, if_neg hk, eq_self_iff_true, if_true]
  rw [hstep]
  rw [foldl_sections_no_h3 h2 k [] _ (by simp [setKey])]
  simp [joinRaw]

/-- C6 witness: the general last-write-wins law evaluated on the concrete
duplicate `ANSWER` token sequence gives only the second body. -/
theorem c6_last_write_wins_witness :
    getSectionsByH3
        [Token.heading 3 (chars "ANSWER") (chars "### ANSWER\n"),
         Token.text (chars "first\n"),
         Token.heading 3 (chars "ANSWER") (chars "### ANSWER\n"),
         Token.text (chars "second")] (chars "ANSWER")
      = some (chars "second") :=
  (c6_last_write_wins.1
    [Token.heading 3 (chars "ANSWER") (chars "### ANSWER\n"),
     Token.text (chars "first\n")]
    [Token.text (chars "second")]
    (chars "ANSWER") (chars "### ANSWER\n") (chars "ANSWER")
    (by decide) (by decide) (by decide)).trans (by decide)

/-- C10: every `ProblemSolution` assembled from a successfully parsed chunk
has fully trimmed fields — problem, explanation, answer, and each step title
and content equal their own trim — while the synthetic fallback record can
carry the original input's surrounding whitespace in its explanation and step
content. -/
theorem c10_trimmed_fields :
    (∀ (s : Str) (p : ProblemSolution), chunkToProblem s = some p →
        trim p.problem = p.problem ∧ trim p.explanation = p.explanation
          ∧ trim p.answer = p.answer
          ∧ ∀ st ∈ p.steps, trim st.title = st.title ∧ trim st.content = st.content)
    ∧ (parseSolveResponse (chars "x ")
        = ⟨[⟨chars "Error parsing problem text", chars "x ", [],
             [⟨chars "Error", chars "x "⟩]⟩]⟩
       ∧ trim (chars "x ") ≠ chars "x ") := by
  refine ⟨?_, by decide, by decide⟩
  intro s p hp
  rw [chunkToProblem] at hp
  split at hp
  · exact absurd hp (by simp)
  · rw [mkProblem] at hp
    split at hp
    · exact absurd hp (by simp)
    · simp only [Option.some.injEq] at hp
      subst hp
      exact ⟨sections_getD_trimmed _ _, sections_getD_trimmed _ _,
        sections_getD_trimmed _ _, fun st hst => parseSteps_trimmed st hst⟩

/-- C10 witness: the record parsed from `### ANSWER\n 42 ` has all fields
equal to their own trim. -/
theorem c10_trimmed_fields_witness :
    trim (⟨[], [], chars "42", []⟩ : ProblemSolution).problem
        = (⟨[], [], chars "42", []⟩ : ProblemSolution).problem
      ∧ trim (⟨[], [], chars "42", []⟩ : ProblemSolution).explanation
        = (⟨[], [], chars "42", []⟩ : ProblemSolution).explanation
      ∧ trim (⟨[], [], chars "42", []⟩ : ProblemSolution).answer
        = (⟨[], [], chars "42", []⟩ : ProblemSolution).answer
      ∧ ∀ st ∈ (⟨[], [], chars "42", []⟩ : ProblemSolution).steps,
          trim st.title = st.title ∧ trim st.content = st.content :=
  c10_trimmed_fields.1 (chars "### ANSWER\n 42 ") ⟨[], [], chars "42", []⟩ (by decide)

/-- C3 counterexample: an input holding two separate complete fences with
content between them is nevertheless stripped of its outermost markers by the
fence stripper — the anchored regex treats the first opener and the last
closer as one wrapper — so the result differs from the trimmed input. -/
theorem c3_counterexample :
    trimMarkdownFence (chars "```\na\n```\nmid\n```\nb\n```")
        = chars "a\n```\nmid\n```\nb"
    ∧ trimMarkdownFence (chars "```\na\n```\nmid\n```\nb\n```")
        ≠ trim (chars "```\na\n```\nmid\n```\nb\n```") :=
  ⟨by decide, by decide⟩

/-- C3 (amended): whenever the trimmed input does not both begin with the
three-backtick marker and end with it, the fence stripper returns the input
trimmed but otherwise unchanged; an input whose trimmed form starts and ends
with the marker is treated as one enclosing wrapper even when the markers
belong to two different fences. -/
theorem c3_no_wrapper_unchanged (s : Str)
    (h : ¬ (fence3 <+: trim s ∧ fence3 <:+ trim s)) :
    trimMarkdownFence s = trim s := by
  have hnone : fenceInnerL (trim s) = none := by
    rw [fenceInnerL]
    by_cases hpre : fence3.isPrefixOf (trim s)
    · rw [if_pos hpre]
      have hpre' : fence3 <+: trim s := List.isPrefixOf_iff_prefix.1 hpre
      have hsuf : ¬ fence3 <:+ trim s := fun hs => h ⟨hpre', hs⟩
      have hcond : ¬ (3 ≤ (dropLang ((trim s).drop 3)).length
          ∧ (dropLang ((trim s).drop 3)).drop
              ((dropLang ((trim s).drop 3)).length - 3) = fence3) := by
        rintro ⟨hlen, hdrop⟩
        apply hsuf
        have h1 : fence3 <:+ dropLang ((trim s).drop 3) :=
          hdrop ▸ List.drop_suffix _ _
        have h2 : dropLang ((trim s).drop 3) <:+ (trim s).drop 3 :=
          dropLang_suffix _
        have h3 : (trim s).drop 3 <:+ trim s := List.drop_suffix _ _
        exact h1.trans (h2.trans h3)
      rw [fenceBody, if_neg hcond]
    · rw [if_neg hpre]
  rw [trimMarkdownFence, hnone]
  rfl

/-- C3 witness: an input with no fence markers is returned trimmed and
otherwise unchanged. -/
theorem c3_no_wrapper_unchanged_witness :
    trimMarkdownFence (chars "no fence here") = trim (chars "no fence here") :=
  c3_no_wrapper_unchanged (chars "no fence here") (by decide)

/-- C8 counterexample: wrapping an unstructured input in a fence changes the
result of `parseSolveResponse`, because the synthetic fallback record carries
the entire original (still fenced) input as its explanation. -/
theorem c8_counterexample :
    parseSolveResponse (wrapFence [] (chars "just plain text"))
      ≠ parseSolveResponse (chars "just plain text") := by
  decide

/-- C8 (amended): chunk parsing is invariant under one enclosing fence — the
section map of the wrapped input equals that of the bare input whenever the
bare trimmed input does not itself match the fence regex — and
`parseSolveResponse` is invariant whenever in addition neither text contains
the problem separator (each splits as a single chunk) and the bare input
parses to a problem record rather than falling back. -/
theorem c8_fence_invariance (s lang : Str)
    (hlang : ∀ c ∈ lang, isWordChar c = true)
    (hfence : fenceInnerL (trim s) = none) :
    sectionsOf (wrapFence lang s) = sectionsOf s
    ∧ (∀ p, chunkToProblem s = some p →
        splitOnL sepL s = [s] →
        splitOnL sepL (wrapFence lang s) = [wrapFence lang s] →
        parseSolveResponse (wrapFence lang s) = parseSolveResponse s) := by
  have hsec : sectionsOf (wrapFence lang s) = sectionsOf s := by
    rw [sectionsOf, sectionsOf, trimFence_wrap lang s hlang, trimMarkdownFence, hfence]
    rfl
  refine ⟨hsec, ?_⟩
  intro p hp h1 h2
  have hwtrim : trim (wrapFence lang s) ≠ [] := by
    intro hts
    have hws := (trim_eq_nil_iff _).1 hts
    have hbt : bt ∈ wrapFence lang s := by
      rw [wrapFence, chars_fence]
      exact List.mem_append.2 (Or.inl (List.mem_append.2 (Or.inl
        (List.mem_append.2 (Or.inl (List.mem_append.2 (Or.inl
          (List.mem_append.2 (Or.inl (List.mem_cons_self _ _))))))))))
    have := hws bt hbt
    rw [bt_not_ws] at this
    exact absurd this (by simp)
  have hstrim : trim s ≠ [] := by
    intro hts
    rw [chunkToProblem, if_pos hts] at hp
    exact absurd hp (by simp)
  have hcw : chunkToProblem (wrapFence lang s) = some p := by
    rw [chunkToProblem, if_neg hwtrim, hsec]
    rw [chunkToProblem, if_neg hstrim] at hp
    exact hp
  rw [parseSolveResponse, parseSolveResponse, h1, h2]
  have e1 : List.filterMap chunkToProblem [wrapFence lang s] = [p] := by
    simp [List.filterMap_cons, hcw]
  have e2 : List.filterMap chunkToProblem [s] = [p] := by
    simp [List.filterMap_cons, hp]
  rw [e1, e2, if_neg (by simp), if_neg (by simp)]

/-- C8 witness: a concrete sectioned response wrapped in a language-tagged
fence parses identically to the bare response. -/
theorem c8_fence_invariance_witness :
    parseSolveResponse (wrapFence (chars "md") (chars "### ANSWER\n42"))
      = parseSolveResponse (chars "### ANSWER\n42") :=
  (c8_fence_invariance (chars "### ANSWER\n42") (chars "md")
      (by decide) (by decide)).2
    ⟨[], [], chars "42", []⟩ (by decide) (by decide) (by decide)

/-- C9 counterexample: two individually well-formed single-problem texts can
join so that the first text's tail and the separator fuse into an earlier
separator occurrence, leaving only one parsed record instead of two. -/
theorem c9_counterexample :
    chunkToProblem (chars "### ANSWER\nx---PROBLEM_SEPARATOR")
        = some ⟨[], [], chars "x---PROBLEM_SEPARATOR", []⟩
    ∧ chunkToProblem (chars "### ANSWER\ny") = some ⟨[], [], chars "y", []⟩
    ∧ (parseSolveResponse (chars "### ANSWER\nx---PROBLEM_SEPARATOR"
          ++ sepL ++ chars "### ANSWER\ny")).problems.length = 1 :=
  ⟨by decide, by decide, by decide⟩

/-- C9 (amended): joining two texts with the separator literal yields exactly
their two records in order, provided each text alone parses to one record and
the concatenation splits on the separator into exactly the two texts (the
junction does not fuse into an earlier separator occurrence). -/
theorem c9_multi_problem_split (t₁ t₂ : Str) (p₁ p₂ : ProblemSolution)
    (hsplit : splitOnL sepL (t₁ ++ sepL ++ t₂) = [t₁, t₂])
    (h1 : chunkToProblem t₁ = some p₁) (h2 : chunkToProblem t₂ = some p₂) :
    parseSolveResponse (t₁ ++ sepL ++ t₂) = ⟨[p₁, p₂]⟩ := by
  rw [parseSolveResponse, hsplit]
  have e : List.filterMap chunkToProblem [t₁, t₂] = [p₁, p₂] := by
    simp [List.filterMap_cons, h1, h2]
  rw [e, if_neg (by simp)]

/-- C9 witness: two concrete single-problem texts joined by the separator
yield their two records in original order. -/
theorem c9_multi_problem_split_witness :
    parseSolveResponse (chars "### PROBLEM_TEXT\nA" ++ sepL ++ chars "### ANSWER\nB")
      = ⟨[⟨chars "A", [], [], []⟩, ⟨[], [], chars "B", []⟩]⟩ :=
  c9_multi_problem_split (chars "### PROBLEM_TEXT\nA") (chars "### ANSWER\nB")
    ⟨chars "A", [], [], []⟩ ⟨[], [], chars "B", []⟩
    (by decide) (by decide) (by decide)

end Skid
